import Mathlib

/-!
Shallow embedding of the Hamiltonian path/cycle utilities from
`src/hamiltonian_paths.cpp` and `src/hamiltonian_cycles.cpp` of the
Disjoint-Tours-and-the-PoD repository, together with proofs about them.

Vertex labels are natural numbers (the C++ code stores small positive
`int` labels in `std::vector<int>`); `std::abs(a - b)` on such labels is
the natural absolute difference.  Cost bounds (`double` in the C++
signatures, always fed exact small decimal literals by the callers) are
modelled as rationals, with the same strict comparison
`cost1 + cost2 < bound`.
-/

namespace PoD

open List

/-- `|a - b|` for labels: models `std::abs(path.at(i) - path.at(i+1))`. -/
def absDiff (a b : Nat) : Nat := max a b - min a b

/-- `computeCostPath` (hamiltonian_paths.cpp, lines 22-29): sum of
`|path[i] - path[i+1]|` over the `n - 1` consecutive pairs. -/
def computeCostPath : List Nat → Nat
  | a :: b :: rest => absDiff a b + computeCostPath (b :: rest)
  | _ => 0

/-- `arePathsWithinBound` (hamiltonian_paths.cpp, lines 35-39):
`costPath1 + costPath2 < bound`, strict comparison against the bound. -/
def arePathsWithinBound (path1 path2 : List Nat) (bound : ℚ) : Bool :=
  decide ((computeCostPath path1 : ℚ) + (computeCostPath path2 : ℚ) < bound)

/-- `edgeExistsInPath` (hamiltonian_paths.cpp, lines 46-54): the loop over
`i = 1 .. n-1` testing whether `(tail, head)` occurs, in either order, as a
consecutive pair of the path. -/
def edgeExistsInPath (t h : Nat) : List Nat → Bool
  | a :: b :: rest =>
      ((a == t && b == h) || (a == h && b == t)) || edgeExistsInPath t h (b :: rest)
  | _ => false

/-- `areDisjointPaths` (hamiltonian_paths.cpp, lines 61-71), with the
`assert(path1.size() == path2.size())` dropped (see the `Checked` variant):
returns `false` as soon as some consecutive edge of `path1` occurs in
`path2`, else `true`. -/
def areDisjointPaths : List Nat → List Nat → Bool
  | a :: b :: rest, path2 =>
      !(edgeExistsInPath a b path2) && areDisjointPaths (b :: rest) path2
  | _, _ => true

/-- `areDisjointPaths` with its `assert` modelled: the C++ function aborts
when the lengths differ, and otherwise returns the unchecked result. -/
def areDisjointPathsChecked (path1 path2 : List Nat) : Option Bool :=
  if path1.length = path2.length then some (areDisjointPaths path1 path2) else none

/-- Circle-metric cost of one edge: `min(|a-b|, n - |a-b|)`
(hamiltonian_cycles.cpp, line 69 and line 74). -/
def cycleEdgeCost (n a b : Nat) : Nat := min (absDiff a b) (n - absDiff a b)

/-- The internal-edge loop of `computeCostCycle` (lines 67-70): sum of
`min(diff, n - diff)` over consecutive pairs. -/
def internalCycleCost (n : Nat) : List Nat → Nat
  | a :: b :: rest => cycleEdgeCost n a b + internalCycleCost n (b :: rest)
  | _ => 0

/-- `computeCostCycle` (hamiltonian_cycles.cpp, lines 60-75), `assert`
dropped (see the `Checked` variant): internal edges plus the closing edge
from `cycle[n-1]` back to `1`. -/
def computeCostCycle (cycle : List Nat) : Nat :=
  internalCycleCost cycle.length cycle + cycleEdgeCost cycle.length (cycle.getLastD 0) 1

/-- `computeCostCycle` with its `assert(cycle.at(0) == 1)` modelled
(an empty cycle makes `cycle.at(0)` throw, also a fast failure). -/
def computeCostCycleChecked (cycle : List Nat) : Option Nat :=
  if cycle.headD 0 = 1 then some (computeCostCycle cycle) else none

/-- `areCyclesWithinBound` (hamiltonian_cycles.cpp, lines 82-86):
`costCycle1 + costCycle2 < bound`, strict comparison against the bound. -/
def areCyclesWithinBound (cycle1 cycle2 : List Nat) (bound : ℚ) : Bool :=
  decide ((computeCostCycle cycle1 : ℚ) + (computeCostCycle cycle2 : ℚ) < bound)

/-- `edgeExistsInCycle` (hamiltonian_cycles.cpp, lines 93-104), `assert`
dropped (see the `Checked` variant): first the closing edge
`(1, cycle[n-1])` is tested, then the internal loop, which is literally the
same loop as `edgeExistsInPath`. -/
def edgeExistsInCycle (t h : Nat) (cycle : List Nat) : Bool :=
  ((t == 1 && cycle.getLastD 0 == h) || (h == 1 && cycle.getLastD 0 == t))
    || edgeExistsInPath t h cycle

/-- `edgeExistsInCycle` with its `assert(cycle.at(0) == 1)` modelled. -/
def edgeExistsInCycleChecked (t h : Nat) (cycle : List Nat) : Option Bool :=
  if cycle.headD 0 = 1 then some (edgeExistsInCycle t h cycle) else none

/-- The internal-edge loop of `areDisjointCycles` (lines 119-121): walks
the consecutive edges of the first cycle testing membership in the second. -/
def noInternalEdgeInCycle : List Nat → List Nat → Bool
  | a :: b :: rest, cycle2 =>
      !(edgeExistsInCycle a b cycle2) && noInternalEdgeInCycle (b :: rest) cycle2
  | _, _ => true

/-- `areDisjointCycles` (hamiltonian_cycles.cpp, lines 111-124), `assert`s
dropped (see the `Checked` variant): the closing edge `(1, cycle1[n-1])` is
tested against `cycle2` first, then every internal edge of `cycle1`. -/
def areDisjointCycles (cycle1 cycle2 : List Nat) : Bool :=
  !(edgeExistsInCycle 1 (cycle1.getLastD 0) cycle2) && noInternalEdgeInCycle cycle1 cycle2

/-- `areDisjointCycles` with its three `assert`s modelled: equal sizes and
both cycles starting at vertex 1. -/
def areDisjointCyclesChecked (cycle1 cycle2 : List Nat) : Option Bool :=
  if cycle1.length = cycle2.length ∧ cycle1.headD 0 = 1 ∧ cycle2.headD 0 = 1 then
    some (areDisjointCycles cycle1 cycle2)
  else none

/-- The `i > 0` iterations of the depth loop of `isOddDepthCycle`
(lines 36-44): over consecutive pairs, count the edges whose span wraps,
i.e. with `diff > n - diff`. -/
def internalWrapCount (n : Nat) : List Nat → Nat
  | a :: b :: rest =>
      (if absDiff a b > n - absDiff a b then 1 else 0) + internalWrapCount n (b :: rest)
  | _ => 0

/-- `isOddDepthCycle` (hamiltonian_cycles.cpp, lines 30-50), `assert`
dropped (see the `Checked` variant).  The `i = 0` iteration increments the
depth exactly when the first edge does not wrap; the `i > 0` iterations
increment when the edge wraps; the closing edge `(cycle[n-1], 1)`
increments when `lastDiff < n - lastDiff` (strict).  Returns whether the
total is odd. -/
def isOddDepthCycle (cycle : List Nat) : Bool :=
  let n := cycle.length
  let firstCount : Nat :=
    match cycle with
    | a :: b :: _ => if absDiff a b > n - absDiff a b then 0 else 1
    | _ => 0
  let internalCount : Nat :=
    match cycle with
    | _ :: rest => internalWrapCount n rest
    | [] => 0
  let lastDiff := absDiff (cycle.getLastD 0) 1
  let closingCount : Nat := if lastDiff < n - lastDiff then 1 else 0
  (firstCount + internalCount + closingCount) % 2 == 1

/-- `isOddDepthCycle` with its `assert(cycle.at(0) == 1)` modelled. -/
def isOddDepthCycleChecked (cycle : List Nat) : Option Bool :=
  if cycle.headD 0 = 1 then some (isOddDepthCycle cycle) else none

/-- Fuel-indexed generator of all permutations of `l` in lexicographic
order (smallest available element first); with `fuel = l.length` this is
the sequence `std::next_permutation` visits when started from the sorted
arrangement, which is how both enumeration loops of the C++ code produce
their candidate lists. -/
def permsLexAux : Nat → List Nat → List (List Nat)
  | 0, _ => [[]]
  | fuel + 1, l => l.flatMap (fun x => (permsLexAux fuel (l.erase x)).map (x :: ·))

/-- All permutations of `l`, in lexicographic order when `l` is sorted. -/
def permsLex (l : List Nat) : List (List Nat) := permsLexAux l.length l

/-- The candidate list built by `disjointPathsExist` /
`disjointPathsExistWithinBound` (hamiltonian_paths.cpp, lines 86-89 and
112-116): `std::next_permutation(identity.begin() + 1, identity.end() - 1)`
keeps the endpoints `1` and `n` fixed and runs the interior
`[2, .., n-1]` through all its permutations in lexicographic order. -/
def enumeratePaths (n : Nat) : List (List Nat) :=
  (permsLex (List.range' 2 (n - 2))).map (fun mid => 1 :: (mid ++ [n]))

/-- The reversal filter of the cycle enumeration loop (lines 141-147):
keep the permutation `1 :: t` iff `identity.at(n-1) > identity.at(1)`,
i.e. iff the last element of `t` exceeds its first. -/
def lastGtSecond (t : List Nat) : Bool := decide (t.headD 0 < t.getLastD 0)

/-- The candidate list built by `disjointCyclesExist` /
`disjointCyclesExistWithinBound` (hamiltonian_cycles.cpp, lines 140-147 and
175-182): the loop visits every permutation of `[1..n]` that starts with
`1` in lexicographic order (stopping at the first permutation with a
different head) and keeps those whose last element exceeds the second. -/
def enumerateCycles (n : Nat) : List (List Nat) :=
  ((permsLex (List.range' 2 (n - 1))).filter lastGtSecond).map (fun t => 1 :: t)

/-- The pairwise scan shared by all four existence queries: for indices
`i < j` in order, test the pair `(l[i], l[j])` and short-circuit on the
first success. -/
def existsPairSat (P : List Nat → List Nat → Bool) : List (List Nat) → Bool
  | [] => false
  | c :: rest => rest.any (P c) || existsPairSat P rest

/-- `disjointPathsExist` (hamiltonian_paths.cpp, lines 80-100). -/
def disjointPathsExist (n : Nat) : Bool :=
  existsPairSat areDisjointPaths (enumeratePaths n)

/-- `disjointPathsExistWithinBound` (hamiltonian_paths.cpp, lines 107-130). -/
def disjointPathsExistWithinBound (n : Nat) (bound : ℚ) : Bool :=
  existsPairSat (fun path1 path2 => areDisjointPaths path1 path2
    && arePathsWithinBound path1 path2 bound) (enumeratePaths n)

/-- `disjointCyclesExist` (hamiltonian_cycles.cpp, lines 133-161). -/
def disjointCyclesExist (n : Nat) : Bool :=
  existsPairSat areDisjointCycles (enumerateCycles n)

/-- `disjointCyclesExistWithinBound` (hamiltonian_cycles.cpp, lines
168-200): the pair predicate additionally requires both cycles odd-depth
and the combined cost below the bound. -/
def disjointCyclesExistWithinBound (n : Nat) (bound : ℚ) : Bool :=
  existsPairSat (fun cycle1 cycle2 =>
    (isOddDepthCycle cycle1 && isOddDepthCycle cycle2)
      && areDisjointCycles cycle1 cycle2
      && areCyclesWithinBound cycle1 cycle2 bound) (enumerateCycles n)


/-! ### Properties of the lexicographic permutation generator -/

theorem permsLexAux_length : ∀ (fuel : Nat) (l : List Nat), l.length = fuel →
    (permsLexAux fuel l).length = Nat.factorial fuel := by
  intro fuel
  induction fuel with
  | zero => intro l _; simp [permsLexAux, Nat.factorial]
  | succ fuel ih =>
    intro l hl
    simp only [permsLexAux]
    rw [List.length_flatMap]
    have h1 : ∀ x ∈ l, (Function.comp List.length
        (fun x => (permsLexAux fuel (l.erase x)).map (x :: ·))) x = Nat.factorial fuel := by
      intro x hx
      simp only [Function.comp]
      rw [List.length_map]
      exact ih _ (by simp [List.length_erase_of_mem hx, hl])
    rw [List.map_congr_left h1, List.map_const', List.sum_replicate, smul_eq_mul, hl,
      Nat.factorial_succ]

theorem permsLexAux_mem : ∀ (fuel : Nat) (l p : List Nat), l.length = fuel →
    (p ∈ permsLexAux fuel l ↔ p ~ l) := by
  intro fuel
  induction fuel with
  | zero =>
    intro l p hl
    have hnil : l = [] := List.length_eq_zero.mp hl
    subst hnil
    simp [permsLexAux, List.perm_nil]
  | succ fuel ih =>
    intro l p hl
    simp only [permsLexAux, List.mem_flatMap, List.mem_map]
    constructor
    · rintro ⟨x, hx, q, hq, rfl⟩
      have hq' : q ~ l.erase x := (ih _ q (by simp [List.length_erase_of_mem hx, hl])).mp hq
      exact (hq'.cons x).trans (List.perm_cons_erase hx).symm
    · intro hp
      cases p with
      | nil => exact absurd hp.length_eq (by simp [hl])
      | cons x q =>
        have hx : x ∈ l := hp.subset (List.mem_cons_self x q)
        refine ⟨x, hx, q, ?_, rfl⟩
        exact (ih _ q (by simp [List.length_erase_of_mem hx, hl])).mpr
          (hp.trans (List.perm_cons_erase hx)).cons_inv

theorem permsLexAux_sorted : ∀ (fuel : Nat) (l : List Nat), l.length = fuel →
    l.Pairwise (· < ·) →
    (permsLexAux fuel l).Pairwise (List.Lex (· < ·)) := by
  intro fuel
  induction fuel with
  | zero => intro l _ _; simp [permsLexAux]
  | succ fuel ih =>
    intro l hl hsorted
    simp only [permsLexAux]
    rw [List.pairwise_flatMap]
    refine ⟨?_, ?_⟩
    · intro x hx
      rw [List.pairwise_map]
      have h := ih (l.erase x) (by simp [List.length_erase_of_mem hx, hl])
        (hsorted.sublist (List.erase_sublist x l))
      exact h.imp (fun hpq => List.Lex.cons hpq)
    · refine hsorted.imp ?_
      intro a b hab p hp q hq
      simp only [List.mem_map] at hp hq
      obtain ⟨p', _, rfl⟩ := hp
      obtain ⟨q', _, rfl⟩ := hq
      exact List.Lex.rel hab

theorem not_lex_lt_self (p : List Nat) : ¬ List.Lex (· < ·) p p := by
  intro h
  induction p with
  | nil => cases h
  | cons a q ih =>
    cases h with
    | cons h => exact ih h
    | rel h => exact Nat.lt_irrefl a h

theorem permsLex_length (l : List Nat) :
    (permsLex l).length = Nat.factorial l.length :=
  permsLexAux_length l.length l rfl

theorem permsLex_mem (l p : List Nat) : p ∈ permsLex l ↔ p ~ l :=
  permsLexAux_mem l.length l p rfl

theorem permsLex_sorted (l : List Nat) (h : l.Pairwise (· < ·)) :
    (permsLex l).Pairwise (List.Lex (· < ·)) :=
  permsLexAux_sorted l.length l rfl h

theorem permsLex_nodup (l : List Nat) (h : l.Pairwise (· < ·)) :
    (permsLex l).Nodup := by
  refine (permsLex_sorted l h).imp ?_
  intro a b hab heq
  subst heq
  exact not_lex_lt_self a hab

/-! ### Decomposing ranges and basic list helpers -/

theorem range'_one_eq_cons {n : Nat} (h : 1 ≤ n) :
    List.range' 1 n = 1 :: List.range' 2 (n - 1) := by
  obtain ⟨m, rfl⟩ : ∃ m, n = m + 1 := ⟨n - 1, by omega⟩
  rw [List.range'_succ]
  simp

theorem range'_one_eq_cons_concat {n : Nat} (h : 2 ≤ n) :
    List.range' 1 n = 1 :: (List.range' 2 (n - 2) ++ [n]) := by
  obtain ⟨m, rfl⟩ : ∃ m, n = m + 2 := ⟨n - 2, by omega⟩
  rw [List.range'_succ, List.range'_concat]
  simp [Nat.add_comm]

theorem getLastD_irrel {t : List Nat} (h : t ≠ []) (d d' : Nat) :
    t.getLastD d = t.getLastD d' := by
  rw [List.getLastD_eq_getLast?, List.getLastD_eq_getLast?, List.getLast?_eq_getLast t h]
  rfl

theorem headD_ne_getLastD_of_nodup {a b : Nat} {r : List Nat}
    (hnd : (a :: b :: r).Nodup) :
    (a :: b :: r).headD 0 ≠ (a :: b :: r).getLastD 0 := by
  have hmem : (b :: r).getLast (List.cons_ne_nil b r) ∈ b :: r := List.getLast_mem _
  have hlast : (a :: b :: r).getLastD 0 = (b :: r).getLast (List.cons_ne_nil b r) := by
    rw [List.getLastD_cons, List.getLastD_eq_getLast?,
      List.getLast?_eq_getLast (b :: r) (List.cons_ne_nil b r)]
    rfl
  intro heq
  rcases List.nodup_cons.mp hnd with ⟨hna, _⟩
  refine hna ?_
  have : a = (b :: r).getLast (List.cons_ne_nil b r) := by
    simpa [hlast] using heq
  exact this ▸ hmem

theorem reverse_headD (t : List Nat) : t.reverse.headD 0 = t.getLastD 0 := by
  rw [List.headD_eq_head?_getD, List.head?_reverse, List.getLastD_eq_getLast?]

theorem reverse_getLastD (t : List Nat) : t.reverse.getLastD 0 = t.headD 0 := by
  rw [List.getLastD_eq_getLast?, List.getLast?_reverse, List.headD_eq_head?_getD]

/-! ### Properties of the path enumeration -/

theorem mem_enumeratePaths {n : Nat} {p : List Nat} :
    p ∈ enumeratePaths n ↔
      ∃ mid, mid ~ List.range' 2 (n - 2) ∧ p = 1 :: (mid ++ [n]) := by
  simp only [enumeratePaths, List.mem_map, permsLex_mem]
  constructor
  · rintro ⟨mid, hmid, rfl⟩; exact ⟨mid, hmid, rfl⟩
  · rintro ⟨mid, hmid, rfl⟩; exact ⟨mid, hmid, rfl⟩

theorem enumeratePaths_length (n : Nat) :
    (enumeratePaths n).length = Nat.factorial (n - 2) := by
  simp [enumeratePaths, permsLex_length]

theorem enumeratePaths_shape {n : Nat} {p : List Nat} (h2 : 2 ≤ n)
    (hp : p ∈ enumeratePaths n) :
    p ~ List.range' 1 n ∧ p.headD 0 = 1 ∧ p.getLastD 0 = n ∧ p.length = n := by
  obtain ⟨mid, hmid, rfl⟩ := mem_enumeratePaths.mp hp
  have hlen : mid.length = n - 2 := by simpa using hmid.length_eq
  refine ⟨?_, rfl, ?_, ?_⟩
  · rw [range'_one_eq_cons_concat h2]
    exact (hmid.append_right [n]).cons 1
  · have : (1 : Nat) :: (mid ++ [n]) = (1 :: mid) ++ [n] := by simp
    rw [this, List.getLastD_eq_getLast?, List.getLast?_concat]
    rfl
  · simp [hlen]; omega

theorem enumeratePaths_complete {n : Nat} {p : List Nat} (h2 : 2 ≤ n)
    (hperm : p ~ List.range' 1 n) (hhead : p.headD 0 = 1)
    (hlast : p.getLastD 0 = n) : p ∈ enumeratePaths n := by
  cases p with
  | nil =>
    have := hperm.length_eq
    simp at this
    omega
  | cons a q =>
    have ha : a = 1 := by simpa using hhead
    subst ha
    have hqlen : q.length = n - 1 := by
      have := hperm.length_eq
      simp at this
      omega
    have hq_ne : q ≠ [] := by
      intro h
      rw [h] at hqlen
      simp at hqlen
      omega
    obtain ⟨mid, b, rfl⟩ : ∃ mid b, q = mid ++ [b] :=
      ⟨q.dropLast, q.getLast hq_ne, (List.dropLast_concat_getLast hq_ne).symm⟩
    have hb : b = n := by
      have hcons : (1 : Nat) :: (mid ++ [b]) = (1 :: mid) ++ [b] := by simp
      rw [hcons, List.getLastD_eq_getLast?, List.getLast?_concat] at hlast
      simpa using hlast
    subst hb
    have h1 : (1 : Nat) :: (mid ++ [b]) ~ 1 :: (List.range' 2 (b - 2) ++ [b]) := by
      rw [← range'_one_eq_cons_concat h2]
      exact hperm
    exact mem_enumeratePaths.mpr
      ⟨mid, (List.perm_append_right_iff [b]).mp h1.cons_inv, rfl⟩

theorem enumeratePaths_nodup (n : Nat) : (enumeratePaths n).Nodup := by
  refine (permsLex_nodup _ (List.pairwise_lt_range' 2 (n - 2))).map ?_
  intro a b hab
  have : a ++ [n] = b ++ [n] := by simpa using hab
  have := congrArg List.dropLast this
  simpa using this

theorem enumeratePaths_lex_sorted (n : Nat) :
    (enumeratePaths n).Pairwise
      (fun p q => List.Lex (· < ·) (p.drop 1).dropLast ((q.drop 1).dropLast)) := by
  unfold enumeratePaths
  rw [List.pairwise_map]
  refine (permsLex_sorted _ (List.pairwise_lt_range' 2 (n - 2))).imp ?_
  intro a b hab
  simpa using hab

/-! ### Properties of the cycle enumeration -/

theorem mem_enumerateCycles {n : Nat} {c : List Nat} :
    c ∈ enumerateCycles n ↔
      ∃ t, t ~ List.range' 2 (n - 1) ∧ lastGtSecond t = true ∧ c = 1 :: t := by
  simp only [enumerateCycles, List.mem_map, List.mem_filter, permsLex_mem]
  constructor
  · rintro ⟨t, ⟨ht, hf⟩, rfl⟩; exact ⟨t, ht, hf, rfl⟩
  · rintro ⟨t, ht, hf, rfl⟩; exact ⟨t, ⟨ht, hf⟩, rfl⟩

theorem lastGtSecond_reverse {t : List Nat} (hnd : t.Nodup) (hlen : 2 ≤ t.length) :
    lastGtSecond t.reverse = !(lastGtSecond t) := by
  have hne : t.headD 0 ≠ t.getLastD 0 := by
    match t, hlen with
    | a :: b :: r, _ => exact headD_ne_getLastD_of_nodup hnd
  simp only [lastGtSecond, reverse_headD, reverse_getLastD]
  have hiff : (t.getLastD 0 < t.headD 0) ↔ ¬ (t.headD 0 < t.getLastD 0) := by omega
  rw [decide_eq_decide.mpr hiff, decide_not]

theorem countP_lastGtSecond (n : Nat) (h3 : 3 ≤ n) :
    2 * (permsLex (List.range' 2 (n - 1))).countP lastGtSecond =
      Nat.factorial (n - 1) := by
  set L := permsLex (List.range' 2 (n - 1)) with hL
  have hbase_nodup : (List.range' 2 (n - 1)).Nodup := List.nodup_range' 2 (n - 1)
  have hLnodup : L.Nodup := permsLex_nodup _ (List.pairwise_lt_range' 2 (n - 1))
  have hmem : ∀ p : List Nat, p ∈ L.map List.reverse ↔ p ∈ L := by
    intro p
    simp only [hL, List.mem_map, permsLex_mem]
    constructor
    · rintro ⟨t, ht, rfl⟩
      exact (t.reverse_perm).trans ht
    · intro hp
      exact ⟨p.reverse, (p.reverse_perm).trans hp, by simp⟩
  have hperm : L.map List.reverse ~ L :=
    (List.perm_ext_iff_of_nodup (hLnodup.map List.reverse_injective) hLnodup).mpr hmem
  have hstep : L.countP lastGtSecond = L.countP (fun t => !(lastGtSecond t)) := by
    calc L.countP lastGtSecond
        = (L.map List.reverse).countP lastGtSecond := (hperm.countP_eq _).symm
      _ = L.countP (fun t => lastGtSecond t.reverse) := by
          rw [List.countP_map]
          rfl
      _ = L.countP (fun t => !(lastGtSecond t)) := by
          refine List.countP_congr ?_
          intro t ht
          have htp : t ~ List.range' 2 (n - 1) := (permsLex_mem _ t).mp ht
          have hnd : t.Nodup := htp.nodup_iff.mpr hbase_nodup
          have hlen : 2 ≤ t.length := by
            have := htp.length_eq
            simp at this
            omega
          rw [lastGtSecond_reverse hnd hlen]
  have htotal := @List.length_eq_countP_add_countP _ lastGtSecond L
  have hconv : L.countP (fun a => ¬ lastGtSecond a) = L.countP (fun t => !(lastGtSecond t)) :=
    List.countP_congr (fun x _ => by simp)
  have hlenL : L.length = Nat.factorial (n - 1) := by
    rw [hL, permsLex_length]
    simp
  omega

theorem enumerateCycles_length (n : Nat) (h3 : 3 ≤ n) :
    (enumerateCycles n).length = Nat.factorial (n - 1) / 2 := by
  have h := countP_lastGtSecond n h3
  have : (enumerateCycles n).length = (permsLex (List.range' 2 (n - 1))).countP lastGtSecond := by
    simp [enumerateCycles, List.countP_eq_length_filter]
  omega

theorem enumerateCycles_shape {n : Nat} {c : List Nat} (h3 : 3 ≤ n)
    (hc : c ∈ enumerateCycles n) :
    c ~ List.range' 1 n ∧ c.headD 0 = 1 ∧ c.length = n ∧ c.getD 1 0 < c.getLastD 0 := by
  obtain ⟨t, ht, hf, rfl⟩ := mem_enumerateCycles.mp hc
  have hlen : t.length = n - 1 := by simpa using ht.length_eq
  have ht_ne : t ≠ [] := by
    intro h
    rw [h] at hlen
    simp at hlen
    omega
  refine ⟨?_, rfl, by simp [hlen]; omega, ?_⟩
  · rw [range'_one_eq_cons (by omega)]
    exact ht.cons 1
  · have hsec : (1 :: t).getD 1 0 = t.headD 0 := by
      cases t with
      | nil => rfl
      | cons a q => rfl
    have hlast : (1 :: t).getLastD 0 = t.getLastD 0 := by
      rw [List.getLastD_cons]
      exact getLastD_irrel ht_ne 1 0
    rw [hsec, hlast]
    simpa [lastGtSecond] using hf

theorem enumerateCycles_no_reverses {n : Nat} {c1 c2 : List Nat}
    (h1 : c1 ∈ enumerateCycles n) (h2 : c2 ∈ enumerateCycles n) :
    c2 ≠ 1 :: (c1.drop 1).reverse := by
  obtain ⟨t1, _, hf1, rfl⟩ := mem_enumerateCycles.mp h1
  obtain ⟨t2, _, hf2, rfl⟩ := mem_enumerateCycles.mp h2
  intro heq
  have ht : t2 = t1.reverse := by simpa using heq
  subst ht
  simp only [lastGtSecond, decide_eq_true_eq, reverse_headD, reverse_getLastD] at hf1 hf2
  omega

theorem enumerateCycles_rep {n : Nat} {t : List Nat} (h3 : 3 ≤ n)
    (ht : t ~ List.range' 2 (n - 1)) :
    1 :: t ∈ enumerateCycles n ∨ 1 :: t.reverse ∈ enumerateCycles n := by
  have hnd : t.Nodup := ht.nodup_iff.mpr (List.nodup_range' 2 (n - 1))
  have hlen : 2 ≤ t.length := by
    have := ht.length_eq
    simp at this
    omega
  have hne : t.headD 0 ≠ t.getLastD 0 := by
    match t, hlen with
    | a :: b :: r, _ => exact headD_ne_getLastD_of_nodup hnd
  rcases Nat.lt_or_ge (t.headD 0) (t.getLastD 0) with hlt | hge
  · left
    exact mem_enumerateCycles.mpr ⟨t, ht, by simpa [lastGtSecond] using hlt, rfl⟩
  · right
    refine mem_enumerateCycles.mpr ⟨t.reverse, (t.reverse_perm).trans ht, ?_, rfl⟩
    simp only [lastGtSecond, reverse_headD, reverse_getLastD]
    have : t.getLastD 0 < t.headD 0 := by omega
    simpa using this

/-! ### The pairwise scan as an existential over index pairs -/

theorem existsPairSat_iff (P : List Nat → List Nat → Bool) (l : List (List Nat)) :
    existsPairSat P l = true ↔
      ∃ i j, i < j ∧ j < l.length ∧ P (l.getD i []) (l.getD j []) = true := by
  induction l with
  | nil => simp [existsPairSat]
  | cons c rest ih =>
    simp only [existsPairSat, Bool.or_eq_true, List.any_eq_true, ih]
    constructor
    · rintro (⟨x, hx, hPx⟩ | ⟨i, j, hij, hj, hP⟩)
      · obtain ⟨j, hj, rfl⟩ := List.mem_iff_getElem.mp hx
        refine ⟨0, j + 1, by omega, by simpa using Nat.succ_lt_succ hj, ?_⟩
        rw [List.getD_cons_zero, List.getD_cons_succ, List.getD_eq_getElem _ _ hj]
        exact hPx
      · refine ⟨i + 1, j + 1, by omega, by simpa using Nat.succ_lt_succ hj, ?_⟩
        simpa [List.getD_cons_succ] using hP
    · rintro ⟨i, j, hij, hj, hP⟩
      obtain ⟨j', rfl⟩ : ∃ j', j = j' + 1 := ⟨j - 1, by omega⟩
      have hj' : j' < rest.length := by simpa using hj
      cases i with
      | zero =>
        left
        refine ⟨rest.getD j' [], ?_, ?_⟩
        · rw [List.getD_eq_getElem _ _ hj']
          exact List.getElem_mem hj'
        · simpa [List.getD_cons_zero, List.getD_cons_succ] using hP
      | succ i' =>
        right
        exact ⟨i', j', by omega, hj', by simpa [List.getD_cons_succ] using hP⟩

/-! ### Edge membership and disjointness as statements about edge sets -/

theorem edgeExistsInPath_iff (u v : Nat) (p : List Nat) :
    edgeExistsInPath u v p = true ↔
      ∃ a b, [a, b] <:+: p ∧ ((a = u ∧ b = v) ∨ (a = v ∧ b = u)) := by
  induction p with
  | nil =>
    simp only [edgeExistsInPath]
    constructor
    · intro h; cases h
    · rintro ⟨a, b, ⟨l1, l2, heq⟩, _⟩
      have := congrArg List.length heq
      simp at this
  | cons x rest ih =>
    cases rest with
    | nil =>
      simp only [edgeExistsInPath]
      constructor
      · intro h; cases h
      · rintro ⟨a, b, ⟨l1, l2, heq⟩, _⟩
        have := congrArg List.length heq
        simp at this
        omega
    | cons y rest2 =>
      have hunfold : edgeExistsInPath u v (x :: y :: rest2) =
          (((x == u && y == v) || (x == v && y == u)) || edgeExistsInPath u v (y :: rest2)) := rfl
      rw [hunfold]
      simp only [Bool.or_eq_true, Bool.and_eq_true, beq_iff_eq, ih]
      constructor
      · rintro ((⟨rfl, rfl⟩ | ⟨rfl, rfl⟩) | ⟨a, b, hinf, hmatch⟩)
        · exact ⟨x, y, ⟨[], rest2, rfl⟩, Or.inl ⟨rfl, rfl⟩⟩
        · exact ⟨x, y, ⟨[], rest2, rfl⟩, Or.inr ⟨rfl, rfl⟩⟩
        · exact ⟨a, b, List.infix_cons hinf, hmatch⟩
      · rintro ⟨a, b, ⟨l1, l2, heq⟩, hmatch⟩
        cases l1 with
        | nil =>
          simp only [List.nil_append, List.cons_append, List.cons.injEq] at heq
          obtain ⟨rfl, rfl, _⟩ := heq
          left
          rcases hmatch with ⟨rfl, rfl⟩ | ⟨rfl, rfl⟩
          · exact Or.inl ⟨rfl, rfl⟩
          · exact Or.inr ⟨rfl, rfl⟩
        | cons z l1' =>
          right
          refine ⟨a, b, ⟨l1', l2, ?_⟩, hmatch⟩
          have h2 : z = x ∧ l1' ++ a :: b :: l2 = y :: rest2 := by simpa using heq
          simpa using h2.2

theorem areDisjointPaths_iff (p q : List Nat) :
    areDisjointPaths p q = true ↔
      ∀ a b, [a, b] <:+: p → edgeExistsInPath a b q = false := by
  induction p with
  | nil =>
    simp only [areDisjointPaths]
    constructor
    · rintro _ a b ⟨l1, l2, heq⟩
      have := congrArg List.length heq
      simp at this
    · intro _; trivial
  | cons x rest ih =>
    cases rest with
    | nil =>
      simp only [areDisjointPaths]
      constructor
      · rintro _ a b ⟨l1, l2, heq⟩
        have := congrArg List.length heq
        simp at this
        omega
      · intro _; trivial
    | cons y rest2 =>
      have hunfold : areDisjointPaths (x :: y :: rest2) q =
          (!(edgeExistsInPath x y q) && areDisjointPaths (y :: rest2) q) := rfl
      rw [hunfold, Bool.and_eq_true, Bool.not_eq_true', ih]
      constructor
      · rintro ⟨h1, h2⟩ a b ⟨l1, l2, heq⟩
        cases l1 with
        | nil =>
          simp only [List.nil_append, List.cons_append, List.cons.injEq] at heq
          obtain ⟨rfl, rfl, _⟩ := heq
          exact h1
        | cons z l1' =>
          refine h2 a b ⟨l1', l2, ?_⟩
          have h3 : z = x ∧ l1' ++ a :: b :: l2 = y :: rest2 := by simpa using heq
          simpa using h3.2
      · intro h
        exact ⟨h x y ⟨[], rest2, rfl⟩, fun a b hinf => h a b (List.infix_cons hinf)⟩

theorem edgeExistsInCycle_iff (u v : Nat) (c : List Nat) :
    edgeExistsInCycle u v c = true ↔
      ∃ a b, ((a = 1 ∧ b = c.getLastD 0) ∨ [a, b] <:+: c) ∧
        ((a = u ∧ b = v) ∨ (a = v ∧ b = u)) := by
  simp only [edgeExistsInCycle, Bool.or_eq_true, Bool.and_eq_true, beq_iff_eq,
    edgeExistsInPath_iff]
  constructor
  · rintro ((⟨rfl, rfl⟩ | ⟨rfl, rfl⟩) | ⟨a, b, hinf, hmatch⟩)
    · exact ⟨1, c.getLastD 0, Or.inl ⟨rfl, rfl⟩, Or.inl ⟨rfl, rfl⟩⟩
    · exact ⟨1, c.getLastD 0, Or.inl ⟨rfl, rfl⟩, Or.inr ⟨rfl, rfl⟩⟩
    · exact ⟨a, b, Or.inr hinf, hmatch⟩
  · rintro ⟨a, b, ⟨rfl, rfl⟩ | hinf, ⟨rfl, rfl⟩ | ⟨rfl, rfl⟩⟩
    · exact Or.inl (Or.inl ⟨rfl, rfl⟩)
    · exact Or.inl (Or.inr ⟨rfl, rfl⟩)
    · exact Or.inr ⟨a, b, hinf, Or.inl ⟨rfl, rfl⟩⟩
    · exact Or.inr ⟨a, b, hinf, Or.inr ⟨rfl, rfl⟩⟩

theorem noInternalEdgeInCycle_iff (p q : List Nat) :
    noInternalEdgeInCycle p q = true ↔
      ∀ a b, [a, b] <:+: p → edgeExistsInCycle a b q = false := by
  induction p with
  | nil =>
    simp only [noInternalEdgeInCycle]
    constructor
    · rintro _ a b ⟨l1, l2, heq⟩
      have := congrArg List.length heq
      simp at this
    · intro _; trivial
  | cons x rest ih =>
    cases rest with
    | nil =>
      simp only [noInternalEdgeInCycle]
      constructor
      · rintro _ a b ⟨l1, l2, heq⟩
        have := congrArg List.length heq
        simp at this
        omega
      · intro _; trivial
    | cons y rest2 =>
      have hunfold : noInternalEdgeInCycle (x :: y :: rest2) q =
          (!(edgeExistsInCycle x y q) && noInternalEdgeInCycle (y :: rest2) q) := rfl
      rw [hunfold, Bool.and_eq_true, Bool.not_eq_true', ih]
      constructor
      · rintro ⟨h1, h2⟩ a b ⟨l1, l2, heq⟩
        cases l1 with
        | nil =>
          simp only [List.nil_append, List.cons_append, List.cons.injEq] at heq
          obtain ⟨rfl, rfl, _⟩ := heq
          exact h1
        | cons z l1' =>
          refine h2 a b ⟨l1', l2, ?_⟩
          have h3 : z = x ∧ l1' ++ a :: b :: l2 = y :: rest2 := by simpa using heq
          simpa using h3.2
      · intro h
        exact ⟨h x y ⟨[], rest2, rfl⟩, fun a b hinf => h a b (List.infix_cons hinf)⟩

theorem areDisjointCycles_iff (c1 c2 : List Nat) :
    areDisjointCycles c1 c2 = true ↔
      ∀ a b, ((a = 1 ∧ b = c1.getLastD 0) ∨ [a, b] <:+: c1) →
        edgeExistsInCycle a b c2 = false := by
  rw [areDisjointCycles, Bool.and_eq_true, Bool.not_eq_true', noInternalEdgeInCycle_iff]
  constructor
  · rintro ⟨h1, h2⟩ a b (⟨rfl, rfl⟩ | hinf)
    · exact h1
    · exact h2 a b hinf
  · intro h
    exact ⟨h 1 (c1.getLastD 0) (Or.inl ⟨rfl, rfl⟩), fun a b hinf => h a b (Or.inr hinf)⟩

/-! ### Symmetry of the disjointness tests -/

theorem areDisjointPaths_true_symm {p q : List Nat}
    (hpq : areDisjointPaths p q = true) : areDisjointPaths q p = true := by
  rw [areDisjointPaths_iff] at hpq ⊢
  intro a b hinf
  by_contra hne
  have htrue : edgeExistsInPath a b p = true := by
    cases hcase : edgeExistsInPath a b p with
    | false => exact absurd hcase hne
    | true => rfl
  obtain ⟨x, y, hxy_inf, hmatch⟩ := (edgeExistsInPath_iff a b p).mp htrue
  have hback : edgeExistsInPath x y q = true := by
    refine (edgeExistsInPath_iff x y q).mpr ⟨a, b, hinf, ?_⟩
    rcases hmatch with ⟨ha, hb⟩ | ⟨ha, hb⟩
    · exact Or.inl ⟨ha.symm, hb.symm⟩
    · exact Or.inr ⟨hb.symm, ha.symm⟩
  rw [hpq x y hxy_inf] at hback
  cases hback

theorem areDisjointPaths_comm (p q : List Nat) :
    areDisjointPaths p q = areDisjointPaths q p := by
  cases h1 : areDisjointPaths p q with
  | true => exact (areDisjointPaths_true_symm h1).symm
  | false =>
    cases h2 : areDisjointPaths q p with
    | false => rfl
    | true => rw [areDisjointPaths_true_symm h2] at h1; cases h1

theorem areDisjointCycles_true_symm {p q : List Nat}
    (hpq : areDisjointCycles p q = true) : areDisjointCycles q p = true := by
  rw [areDisjointCycles_iff] at hpq ⊢
  intro a b hedge
  by_contra hne
  have htrue : edgeExistsInCycle a b p = true := by
    cases hcase : edgeExistsInCycle a b p with
    | false => exact absurd hcase hne
    | true => rfl
  obtain ⟨x, y, hxy_edge, hmatch⟩ := (edgeExistsInCycle_iff a b p).mp htrue
  have hback : edgeExistsInCycle x y q = true := by
    refine (edgeExistsInCycle_iff x y q).mpr ⟨a, b, hedge, ?_⟩
    rcases hmatch with ⟨ha, hb⟩ | ⟨ha, hb⟩
    · exact Or.inl ⟨ha.symm, hb.symm⟩
    · exact Or.inr ⟨hb.symm, ha.symm⟩
  rw [hpq x y hxy_edge] at hback
  cases hback

theorem areDisjointCycles_comm (p q : List Nat) :
    areDisjointCycles p q = areDisjointCycles q p := by
  cases h1 : areDisjointCycles p q with
  | true => exact (areDisjointCycles_true_symm h1).symm
  | false =>
    cases h2 : areDisjointCycles q p with
    | false => rfl
    | true => rw [areDisjointCycles_true_symm h2] at h1; cases h1

/-! ### The depth count described by the specification -/

/-- The wrap test as worded in the spec: an edge of span `d` is a wrap
edge iff `d > n - d`. -/
def claimWraps (n d : Nat) : Bool := decide (d > n - d)

/-- The depth count exactly as the specification words it: walking the
`n - 1` consecutive edges, the first edge (`i = 0`) contributes when
direct, every later edge contributes when it wraps, and the closing edge
contributes iff it does not wrap, i.e. iff its span `d` satisfies
`d ≤ n - d`. -/
def claimDepthCount (cycle : List Nat) : Nat :=
  let n := cycle.length
  ((List.range (n - 1)).countP (fun i =>
    let d := absDiff (cycle.getD i 0) (cycle.getD (i + 1) 0)
    if i = 0 then !(claimWraps n d) else claimWraps n d))
  + (if !(claimWraps n (absDiff (cycle.getD (n - 1) 0) 1)) then 1 else 0)

/-- The amended depth count: identical to `claimDepthCount` except that
the closing edge contributes iff its span `d` satisfies `d < n - d`
(strict), matching the code's `lastDiff < n - lastDiff` test. -/
def amendedDepthCount (cycle : List Nat) : Nat :=
  let n := cycle.length
  ((List.range (n - 1)).countP (fun i =>
    let d := absDiff (cycle.getD i 0) (cycle.getD (i + 1) 0)
    if i = 0 then !(claimWraps n d) else claimWraps n d))
  + (if absDiff (cycle.getD (n - 1) 0) 1 < n - absDiff (cycle.getD (n - 1) 0) 1
     then 1 else 0)

theorem getLastD_eq_getD_last (l : List Nat) :
    l.getLastD 0 = l.getD (l.length - 1) 0 := by
  cases l with
  | nil => rfl
  | cons a r =>
    rw [List.getLastD_eq_getLast?, List.getLast?_eq_getLast _ (List.cons_ne_nil a r)]
    rw [List.getD_eq_getElem _ _ (by simp)]
    rw [List.getLast_eq_getElem]
    rfl

theorem internalWrapCount_eq_countP (n : Nat) (l : List Nat) :
    internalWrapCount n l = (List.range (l.length - 1)).countP
      (fun i => claimWraps n (absDiff (l.getD i 0) (l.getD (i + 1) 0))) := by
  induction l with
  | nil => simp [internalWrapCount]
  | cons a rest ih =>
    cases rest with
    | nil => simp [internalWrapCount]
    | cons b r =>
      have hunfold : internalWrapCount n (a :: b :: r) =
          ((if absDiff a b > n - absDiff a b then 1 else 0) + internalWrapCount n (b :: r)) :=
        rfl
      rw [hunfold, ih]
      have hlen1 : (a :: b :: r).length - 1 = r.length + 1 := by simp
      have hlen2 : (b :: r).length - 1 = r.length := by simp
      rw [hlen1, hlen2, List.range_succ_eq_map, List.countP_cons, List.countP_map]
      have hcongr : ((fun i => claimWraps n
            (absDiff ((a :: b :: r).getD i 0) ((a :: b :: r).getD (i + 1) 0))) ∘ Nat.succ)
          = (fun i => claimWraps n (absDiff ((b :: r).getD i 0) ((b :: r).getD (i + 1) 0))) := by
        funext i
        rfl
      rw [hcongr]
      by_cases hw : absDiff a b > n - absDiff a b
      · simp only [claimWraps, List.getD_cons_zero, List.getD_cons_succ, if_pos hw,
          decide_eq_true hw, if_true]
        omega
      · simp only [claimWraps, List.getD_cons_zero, List.getD_cons_succ, if_neg hw,
          decide_eq_false hw, Bool.false_eq_true, if_false]
        omega

theorem amendedDepthCount_cons (a b : Nat) (r : List Nat) :
    amendedDepthCount (a :: b :: r) =
      (if absDiff a b > (a :: b :: r).length - absDiff a b then 0 else 1)
      + internalWrapCount (a :: b :: r).length (b :: r)
      + (if absDiff ((a :: b :: r).getLastD 0) 1 <
            (a :: b :: r).length - absDiff ((a :: b :: r).getLastD 0) 1
         then 1 else 0) := by
  have hlast : (a :: b :: r).getLastD 0 = (a :: b :: r).getD ((a :: b :: r).length - 1) 0 :=
    getLastD_eq_getD_last _
  simp only [amendedDepthCount]
  rw [internalWrapCount_eq_countP, ← hlast]
  have hlen1 : (a :: b :: r).length - 1 = r.length + 1 := by simp
  have hlen2 : (b :: r).length - 1 = r.length := by simp
  rw [hlen1, hlen2, List.range_succ_eq_map, List.countP_cons, List.countP_map]
  have hcongr : ((fun i =>
        let d := absDiff ((a :: b :: r).getD i 0) ((a :: b :: r).getD (i + 1) 0)
        if i = 0 then !(claimWraps (a :: b :: r).length d)
        else claimWraps (a :: b :: r).length d) ∘ Nat.succ)
      = (fun i => claimWraps (a :: b :: r).length
          (absDiff ((b :: r).getD i 0) ((b :: r).getD (i + 1) 0))) := by
    funext i
    rfl
  rw [hcongr]
  simp [claimWraps]
  split_ifs <;> omega

theorem isOddDepthCycle_iff_odd_amended {c : List Nat} (hlen : 2 ≤ c.length) :
    (isOddDepthCycle c = true ↔ Odd (amendedDepthCount c)) := by
  match c, hlen with
  | a :: b :: r, _ =>
    have hunfold : isOddDepthCycle (a :: b :: r) =
        (((if absDiff a b > (a :: b :: r).length - absDiff a b then 0 else 1)
          + internalWrapCount (a :: b :: r).length (b :: r)
          + (if absDiff ((a :: b :: r).getLastD 0) 1 <
                (a :: b :: r).length - absDiff ((a :: b :: r).getLastD 0) 1
             then 1 else 0)) % 2 == 1) := rfl
    rw [hunfold, amendedDepthCount_cons, beq_iff_eq, Nat.odd_iff]

/-! ### Claim theorems -/

set_option maxRecDepth 2000000 in
set_option maxHeartbeats 4000000 in
/-- C1: `disjointPathsExist n` is `false` for `n ∈ {3,4,5}` and `true` for
`n ∈ {6,7,8}`: among all permutations of `[1..n]` with first element `1`
and last element `n`, an edge-disjoint pair exists exactly for
`n ∈ {6,7,8}` within this range. -/
theorem disjointPathsExist_values :
    disjointPathsExist 3 = false ∧ disjointPathsExist 4 = false ∧
    disjointPathsExist 5 = false ∧ disjointPathsExist 6 = true ∧
    disjointPathsExist 7 = true ∧ disjointPathsExist 8 = true :=
  ⟨by decide, by decide, by decide, by decide, by decide, by decide⟩

set_option maxRecDepth 2000000 in
set_option maxHeartbeats 4000000 in
/-- C2: `disjointCyclesExist n` is `false` for `n ∈ {3,4}` and `true` for
`n ∈ {5,6,7,8}`: among the canonical cycle representatives (permutations
of `[1..n]` starting with `1`, one per reversal pair), an edge-disjoint
pair (closing edges included) exists exactly for `n ∈ {5,6,7,8}` within
this range. -/
theorem disjointCyclesExist_values :
    disjointCyclesExist 3 = false ∧ disjointCyclesExist 4 = false ∧
    disjointCyclesExist 5 = true ∧ disjointCyclesExist 6 = true ∧
    disjointCyclesExist 7 = true ∧ disjointCyclesExist 8 = true :=
  ⟨by decide, by decide, by decide, by decide, by decide, by decide⟩

/-- C3 counterexample: the claim says the closing edge contributes to the
depth count iff its span `d` satisfies `d ≤ n - d`, but the code uses the
strict test `lastDiff < n - lastDiff`.  At the cycle `[1, 2, 4, 3]`
(a permutation of `[1..4]` with first element `1`, `n = 4 ≥ 3`) the
closing span is `d = 2 = n - d`: the claimed count is even while
`isOddDepthCycle` returns `true`, so the claimed equivalence fails. -/
theorem isOddDepthCycle_claim_counterexample :
    ([1, 2, 4, 3] : List Nat) ~ List.range' 1 4 ∧
    ([1, 2, 4, 3] : List Nat).headD 0 = 1 ∧
    ¬ (isOddDepthCycle [1, 2, 4, 3] = true ↔ Odd (claimDepthCount [1, 2, 4, 3])) := by
  refine ⟨by decide, by decide, ?_⟩
  decide

/-- C3 (amended): for every cycle (a permutation of `[1..n]` with first
element `1`, `n ≥ 3`), `isOddDepthCycle` returns `true` iff the depth
count is odd, where the first edge contributes when direct
(`d ≤ n - d`), every later internal edge contributes when it wraps
(`d > n - d`), and the closing edge contributes iff its span satisfies
`d < n - d` (strict, instead of the claimed `d ≤ n - d`). -/
theorem isOddDepthCycle_amended (n : Nat) (c : List Nat) (h3 : 3 ≤ n)
    (hperm : c ~ List.range' 1 n) (hhead : c.headD 0 = 1) :
    (isOddDepthCycle c = true ↔ Odd (amendedDepthCount c)) := by
  have hlen : 2 ≤ c.length := by
    have := hperm.length_eq
    simp at this
    omega
  exact isOddDepthCycle_iff_odd_amended hlen

/-- Witness for C3's amended theorem at `n = 4`, `c = [1, 2, 4, 3]`. -/
theorem isOddDepthCycle_amended_witness :
    ((3 ≤ 4) ∧ ([1, 2, 4, 3] : List Nat) ~ List.range' 1 4 ∧
      ([1, 2, 4, 3] : List Nat).headD 0 = 1) ∧
    (isOddDepthCycle [1, 2, 4, 3] = true ↔ Odd (amendedDepthCount [1, 2, 4, 3])) :=
  ⟨⟨by decide, by decide, by decide⟩,
    isOddDepthCycle_amended 4 [1, 2, 4, 3] (by decide) (by decide) (by decide)⟩

/-- C4: for `n ≥ 3` and any bound, `disjointCyclesExistWithinBound n bound`
returns `true` iff some index pair `i < j` in the enumerated canonical
cycle set has both cycles odd-depth, edge-disjoint, and combined integer
cost strictly below the bound; otherwise it returns `false`. -/
theorem disjointCyclesExistWithinBound_iff (n : Nat) (bound : ℚ) (h3 : 3 ≤ n) :
    disjointCyclesExistWithinBound n bound = true ↔
      ∃ i j, i < j ∧ j < (enumerateCycles n).length ∧
        (isOddDepthCycle ((enumerateCycles n).getD i []) = true ∧
         isOddDepthCycle ((enumerateCycles n).getD j []) = true ∧
         areDisjointCycles ((enumerateCycles n).getD i []) ((enumerateCycles n).getD j []) = true ∧
         ((computeCostCycle ((enumerateCycles n).getD i []) : ℚ) +
            (computeCostCycle ((enumerateCycles n).getD j []) : ℚ) < bound)) := by
  rw [disjointCyclesExistWithinBound, existsPairSat_iff]
  refine exists_congr fun i => exists_congr fun j =>
    and_congr_right fun _ => and_congr_right fun _ => ?_
  simp [Bool.and_eq_true, areCyclesWithinBound, and_assoc]

/-- Witness for C4 at `n = 3`, `bound = 0`. -/
theorem disjointCyclesExistWithinBound_iff_witness :
    (3 ≤ 3) ∧
    (disjointCyclesExistWithinBound 3 0 = true ↔
      ∃ i j, i < j ∧ j < (enumerateCycles 3).length ∧
        (isOddDepthCycle ((enumerateCycles 3).getD i []) = true ∧
         isOddDepthCycle ((enumerateCycles 3).getD j []) = true ∧
         areDisjointCycles ((enumerateCycles 3).getD i []) ((enumerateCycles 3).getD j []) = true ∧
         ((computeCostCycle ((enumerateCycles 3).getD i []) : ℚ) +
            (computeCostCycle ((enumerateCycles 3).getD j []) : ℚ) < 0))) :=
  ⟨by decide, disjointCyclesExistWithinBound_iff 3 0 (by decide)⟩

/-- C5: for `n ≥ 3` the enumerated cycle set has exactly `(n-1)!/2`
elements; each is a permutation of `[1..n]` with first element `1` and
last element greater than second element; no element is the reversal
representative `1 :: (tail).reverse` of another; and for every
permutation `t` of `[2..n]`, one of `1 :: t`, `1 :: t.reverse` is kept. -/
theorem enumerateCycles_spec (n : Nat) (h3 : 3 ≤ n) :
    (enumerateCycles n).length = Nat.factorial (n - 1) / 2 ∧
    (∀ c ∈ enumerateCycles n, c ~ List.range' 1 n ∧ c.headD 0 = 1 ∧
      c.getD 1 0 < c.getLastD 0) ∧
    (∀ c1 ∈ enumerateCycles n, ∀ c2 ∈ enumerateCycles n,
      c2 ≠ 1 :: (c1.drop 1).reverse) ∧
    (∀ t, t ~ List.range' 2 (n - 1) →
      (1 :: t ∈ enumerateCycles n ∨ 1 :: t.reverse ∈ enumerateCycles n)) := by
  refine ⟨enumerateCycles_length n h3, ?_, ?_, ?_⟩
  · intro c hc
    obtain ⟨h1, h2, _, h4⟩ := enumerateCycles_shape h3 hc
    exact ⟨h1, h2, h4⟩
  · intro c1 h1 c2 h2
    exact enumerateCycles_no_reverses h1 h2
  · intro t ht
    exact enumerateCycles_rep h3 ht

/-- Witness for C5 at `n = 3`. -/
theorem enumerateCycles_spec_witness :
    (3 ≤ 3) ∧
    ((enumerateCycles 3).length = Nat.factorial 2 / 2 ∧
    (∀ c ∈ enumerateCycles 3, c ~ List.range' 1 3 ∧ c.headD 0 = 1 ∧
      c.getD 1 0 < c.getLastD 0) ∧
    (∀ c1 ∈ enumerateCycles 3, ∀ c2 ∈ enumerateCycles 3,
      c2 ≠ 1 :: (c1.drop 1).reverse) ∧
    (∀ t, t ~ List.range' 2 2 →
      (1 :: t ∈ enumerateCycles 3 ∨ 1 :: t.reverse ∈ enumerateCycles 3))) :=
  ⟨by decide, enumerateCycles_spec 3 (by decide)⟩

/-- C6: for `n ≥ 2` the enumerated path set has exactly `(n-2)!` elements;
each is a permutation of `[1..n]` with first element `1` and last element
`n`; every such permutation appears (and the list has no duplicates, so
each appears exactly once); and the paths come in lexicographic order of
the interior positions. -/
theorem enumeratePaths_spec (n : Nat) (h2 : 2 ≤ n) :
    (enumeratePaths n).length = Nat.factorial (n - 2) ∧
    (∀ p ∈ enumeratePaths n, p ~ List.range' 1 n ∧ p.headD 0 = 1 ∧ p.getLastD 0 = n) ∧
    (∀ p, p ~ List.range' 1 n → p.headD 0 = 1 → p.getLastD 0 = n →
      p ∈ enumeratePaths n) ∧
    (enumeratePaths n).Nodup ∧
    (enumeratePaths n).Pairwise
      (fun p q => List.Lex (· < ·) (p.drop 1).dropLast ((q.drop 1).dropLast)) := by
  refine ⟨enumeratePaths_length n, ?_, ?_, enumeratePaths_nodup n,
    enumeratePaths_lex_sorted n⟩
  · intro p hp
    obtain ⟨h1, h2', h3, _⟩ := enumeratePaths_shape h2 hp
    exact ⟨h1, h2', h3⟩
  · intro p hperm hhead hlast
    exact enumeratePaths_complete h2 hperm hhead hlast

/-- Witness for C6 at `n = 4`. -/
theorem enumeratePaths_spec_witness :
    (2 ≤ 4) ∧
    ((enumeratePaths 4).length = Nat.factorial 2 ∧
    (∀ p ∈ enumeratePaths 4, p ~ List.range' 1 4 ∧ p.headD 0 = 1 ∧ p.getLastD 0 = 4) ∧
    (∀ p, p ~ List.range' 1 4 → p.headD 0 = 1 → p.getLastD 0 = 4 →
      p ∈ enumeratePaths 4) ∧
    (enumeratePaths 4).Nodup ∧
    (enumeratePaths 4).Pairwise
      (fun p q => List.Lex (· < ·) (p.drop 1).dropLast ((q.drop 1).dropLast))) :=
  ⟨by decide, enumeratePaths_spec 4 (by decide)⟩

/-- C7 counterexample: the claim says every wrong-endpoint path argument
makes the function fail fast via an assertion, but the path functions
check only length equality: `areDisjointPaths([2,1], [1,2])`, whose first
path neither starts at `1` nor ends at `n = 2`, passes its only assert
and returns the result `false` instead of aborting. -/
theorem pathEndpoints_not_asserted :
    areDisjointPathsChecked [2, 1] [1, 2] = some false := by decide

/-- C7 (amended): the only assertion-style contract checks are: equal
lengths in `areDisjointPaths`; first element `1` (and nonemptiness) of
every cycle argument of `isOddDepthCycle`, `computeCostCycle`,
`edgeExistsInCycle` and `areDisjointCycles`, plus equal lengths in the
latter.  These aborts fire exactly when their condition is violated; the
path functions perform no endpoint or permutation-shape checks and return
results on such inputs. -/
theorem assert_contracts :
    (∀ p q : List Nat, areDisjointPathsChecked p q = none ↔ p.length ≠ q.length) ∧
    (∀ c : List Nat, isOddDepthCycleChecked c = none ↔ c.headD 0 ≠ 1) ∧
    (∀ c : List Nat, computeCostCycleChecked c = none ↔ c.headD 0 ≠ 1) ∧
    (∀ t h c, edgeExistsInCycleChecked t h c = none ↔ c.headD 0 ≠ 1) ∧
    (∀ c d : List Nat, areDisjointCyclesChecked c d = none ↔
      ¬ (c.length = d.length ∧ c.headD 0 = 1 ∧ d.headD 0 = 1)) := by
  refine ⟨?_, ?_, ?_, ?_, ?_⟩
  · intro p q
    unfold areDisjointPathsChecked
    split <;> simp_all
  · intro c
    unfold isOddDepthCycleChecked
    split <;> simp_all
  · intro c
    unfold computeCostCycleChecked
    split <;> simp_all
  · intro t h c
    unfold edgeExistsInCycleChecked
    split <;> simp_all
  · intro c d
    unfold areDisjointCyclesChecked
    split <;> simp_all

/-- C8: edge-disjointness is symmetric, for equal-length paths and for
equal-length cycles that both start at vertex `1`. -/
theorem disjointness_symm :
    (∀ p q : List Nat, p.length = q.length →
      areDisjointPaths p q = areDisjointPaths q p) ∧
    (∀ c d : List Nat, c.length = d.length → c.headD 0 = 1 → d.headD 0 = 1 →
      areDisjointCycles c d = areDisjointCycles d c) :=
  ⟨fun p q _ => areDisjointPaths_comm p q,
   fun c d _ _ _ => areDisjointCycles_comm c d⟩

/-- Witness for C8 on concrete equal-length inputs. -/
theorem disjointness_symm_witness :
    (areDisjointPaths [1, 3, 2, 4] [1, 2, 3, 4] =
      areDisjointPaths [1, 2, 3, 4] [1, 3, 2, 4]) ∧
    (areDisjointCycles [1, 3, 2, 4] [1, 2, 3, 4] =
      areDisjointCycles [1, 2, 3, 4] [1, 3, 2, 4]) :=
  ⟨disjointness_symm.1 [1, 3, 2, 4] [1, 2, 3, 4] (by decide),
   disjointness_symm.2 [1, 3, 2, 4] [1, 2, 3, 4] (by decide) (by decide) (by decide)⟩

/-- C9: for `n ≥ 3`, every candidate enumerated by the four existence
queries satisfies the assertion preconditions of the helpers it is passed
to: every enumerated path has length `n`, every enumerated cycle has
length `n` and first element `1`, and all checked helper variants return
a result (never the assertion-failure branch) on them. -/
theorem queries_never_assert (n : Nat) (h3 : 3 ≤ n) :
    (∀ p ∈ enumeratePaths n, p.length = n) ∧
    (∀ p q, p ∈ enumeratePaths n → q ∈ enumeratePaths n →
      areDisjointPathsChecked p q = some (areDisjointPaths p q)) ∧
    (∀ c ∈ enumerateCycles n, c.length = n ∧ c.headD 0 = 1 ∧
      isOddDepthCycleChecked c = some (isOddDepthCycle c) ∧
      computeCostCycleChecked c = some (computeCostCycle c) ∧
      (∀ t h, edgeExistsInCycleChecked t h c = some (edgeExistsInCycle t h c))) ∧
    (∀ c d, c ∈ enumerateCycles n → d ∈ enumerateCycles n →
      areDisjointCyclesChecked c d = some (areDisjointCycles c d)) := by
  have hp : ∀ p ∈ enumeratePaths n, p.length = n :=
    fun p hp => (enumeratePaths_shape (by omega) hp).2.2.2
  have hc : ∀ c ∈ enumerateCycles n, c.length = n ∧ c.headD 0 = 1 := by
    intro c hcm
    obtain ⟨_, hh, hl, _⟩ := enumerateCycles_shape h3 hcm
    exact ⟨hl, hh⟩
  refine ⟨hp, ?_, ?_, ?_⟩
  · intro p q hpm hqm
    unfold areDisjointPathsChecked
    rw [if_pos]
    rw [hp p hpm, hp q hqm]
  · intro c hcm
    obtain ⟨hlen, hhead⟩ := hc c hcm
    have hhead' : c.head?.getD 0 = 1 := by
      rw [← List.headD_eq_head?_getD]
      exact hhead
    exact ⟨hlen, hhead, by simp [isOddDepthCycleChecked, hhead'],
      by simp [computeCostCycleChecked, hhead'],
      fun t h => by simp [edgeExistsInCycleChecked, hhead']⟩
  · intro c d hcm hdm
    obtain ⟨hlc, hhc⟩ := hc c hcm
    obtain ⟨hld, hhd⟩ := hc d hdm
    have hhc' : c.head?.getD 0 = 1 := by
      rw [← List.headD_eq_head?_getD]
      exact hhc
    have hhd' : d.head?.getD 0 = 1 := by
      rw [← List.headD_eq_head?_getD]
      exact hhd
    simp [areDisjointCyclesChecked, hlc, hld, hhc', hhd']

/-- Witness for C9 at `n = 3`. -/
theorem queries_never_assert_witness :
    (3 ≤ 3) ∧
    ((∀ p ∈ enumeratePaths 3, p.length = 3) ∧
    (∀ p q, p ∈ enumeratePaths 3 → q ∈ enumeratePaths 3 →
      areDisjointPathsChecked p q = some (areDisjointPaths p q)) ∧
    (∀ c ∈ enumerateCycles 3, c.length = 3 ∧ c.headD 0 = 1 ∧
      isOddDepthCycleChecked c = some (isOddDepthCycle c) ∧
      computeCostCycleChecked c = some (computeCostCycle c) ∧
      (∀ t h, edgeExistsInCycleChecked t h c = some (edgeExistsInCycle t h c))) ∧
    (∀ c d, c ∈ enumerateCycles 3 → d ∈ enumerateCycles 3 →
      areDisjointCyclesChecked c d = some (areDisjointCycles c d))) :=
  ⟨by decide, queries_never_assert 3 (by decide)⟩

/-- C10: no path or cycle is edge-disjoint from itself: every sequence of
length at least `2` shares its first edge with itself, and a cycle always
shares its closing edge with itself. -/
theorem self_not_disjoint :
    (∀ p : List Nat, 2 ≤ p.length → areDisjointPaths p p = false) ∧
    (∀ c : List Nat, 2 ≤ c.length → c.headD 0 = 1 →
      areDisjointCycles c c = false) := by
  constructor
  · intro p hp
    match p, hp with
    | a :: b :: r, _ =>
      have he : edgeExistsInPath a b (a :: b :: r) = true := by
        simp [edgeExistsInPath]
      have hunfold : areDisjointPaths (a :: b :: r) (a :: b :: r) =
          (!(edgeExistsInPath a b (a :: b :: r))
            && areDisjointPaths (b :: r) (a :: b :: r)) := rfl
      rw [hunfold, he]
      rfl
  · intro c _ _
    have he : edgeExistsInCycle 1 (c.getLastD 0) c = true := by
      simp [edgeExistsInCycle]
    rw [areDisjointCycles, he]
    rfl

/-- Witness for C10 on concrete inputs. -/
theorem self_not_disjoint_witness :
    areDisjointPaths [1, 2, 3] [1, 2, 3] = false ∧
    areDisjointCycles [1, 2, 3] [1, 2, 3] = false :=
  ⟨self_not_disjoint.1 [1, 2, 3] (by decide),
   self_not_disjoint.2 [1, 2, 3] (by decide) (by decide)⟩

end PoD
